import Mathlib

/-!
# rmdsnft-contract: mint-authorization signer, deployment script, Hardhat configuration

A shallow embedding of `signMessage.js`, `scripts/deploy.js` and `hardhat.config.js`.

* JavaScript strings are lists of Unicode scalar values (`Str`); a string with a lone
  surrogate has no counterpart here.
* `undefined` is `none`.
* A thrown exception is `Except.error`.
* The cryptographic primitives (Keccak-256, the EIP-55 checksum test, secp256k1 signing) are
  fields of `Web3Primitives`; every theorem holds for all values of them.
* Calls into Node.js, web3.js 1.x and ethers are embedded by the behaviour of the called
  library function; each such definition names the function it stands for.
-/

namespace RMDS

/-! ## Bytes and strings -/

/-- One octet of a Node.js `Buffer`. -/
abbrev Byte := Fin 256

/-- The octet with value `n % 256`. -/
def byte (n : Nat) : Byte := ⟨n % 256, Nat.mod_lt _ (by decide)⟩

/-- A JavaScript string, as its sequence of Unicode scalar values. -/
abbrev Str := List Char

/-- JavaScript `s.length`: the number of UTF-16 code units. -/
def jsLength (s : Str) : Nat :=
  (s.map fun c => if c.toNat < 0x10000 then 1 else 2).sum

/-- The lowercase hexadecimal digit of a nibble. -/
def hexDigit (n : Nat) : Char :=
  if n < 10 then Char.ofNat (48 + n) else Char.ofNat (87 + n)

/-- The value of a hexadecimal digit, either case; `none` for any other character. -/
def hexValue (c : Char) : Option Nat :=
  let v := c.toNat
  if 48 ≤ v ∧ v ≤ 57 then some (v - 48)
  else if 97 ≤ v ∧ v ≤ 102 then some (v - 87)
  else if 65 ≤ v ∧ v ≤ 70 then some (v - 55)
  else none

/-- Two lowercase hexadecimal digits of one octet, high nibble first. -/
def byteToHex (b : Byte) : Str := [hexDigit (b.val / 16), hexDigit (b.val % 16)]

/-- Node.js `buf.toString("hex")`. -/
def bufferToHexString (bs : List Byte) : Str := bs.flatMap byteToHex

/-- Node.js `Buffer.from(s, "hex")`: decodes pairs of hexadecimal digits and stops at the
first pair that is not one (or at a dangling last character). -/
def bufferFromHex : Str → List Byte
  | c1 :: c2 :: rest =>
    match hexValue c1, hexValue c2 with
    | some h, some l => byte (h * 16 + l) :: bufferFromHex rest
    | _, _ => []
  | _ => []

/-- UTF-8 encoding of one scalar value. -/
def utf8EncodeChar (c : Char) : List Byte :=
  let v := c.toNat
  if v < 0x80 then [byte v]
  else if v < 0x800 then [byte (0xC0 + v / 64), byte (0x80 + v % 64)]
  else if v < 0x10000 then
    [byte (0xE0 + v / 4096), byte (0x80 + v / 64 % 64), byte (0x80 + v % 64)]
  else
    [byte (0xF0 + v / 262144), byte (0x80 + v / 4096 % 64), byte (0x80 + v / 64 % 64),
      byte (0x80 + v % 64)]

/-- UTF-8 encoding of a string (`utf8.encode`, `Buffer.from(s, "utf-8")`). -/
def utf8Encode (s : Str) : List Byte := s.flatMap utf8EncodeChar

/-! ## signMessage.js: nonce generation -/

/-- The `crypto` object `generateNonce` reads (`signMessage.js` uses it without declaring
it, so it is a parameter here): `randomBytes n` is the buffer that the call
`crypto.randomBytes(n)` returns, which has `n` octets. One value of `Crypto` stands for the
draws of one call of `Signing`. -/
structure Crypto where
  randomBytes : Nat → List Byte
  randomBytes_length : ∀ n, (randomBytes n).length = n

/-- `generateNonce`: `crypto.randomBytes(16).toString("hex")`. -/
def generateNonce (crypto : Crypto) : Str :=
  bufferToHexString (crypto.randomBytes 16)

/-! ## web3.js: `web3.utils` -/

/-- The cryptographic primitives underneath web3.js, left uninterpreted.

* `keccak256`: the Keccak-256 digest of a buffer.
* `checkAddressChecksum`: `web3.utils.checkAddressChecksum`, the EIP-55 test applied to an
  address string of mixed case (it is computed from Keccak-256).
* `hashMessage`: `web3.eth.accounts.hashMessage`, the Keccak-256 digest (as hex text) of
  `"\x19Ethereum Signed Message:\n" + length` followed by the message octets.
* `ecdsaSign hash privateKey`: the secp256k1 signature (hex string `r ‖ s ‖ v`) of the digest
  `hash` under `privateKey`, or the exception the curve library throws. -/
structure Web3Primitives where
  keccak256 : List Byte → List Byte
  checkAddressChecksum : Str → Bool
  hashMessage : Str → Str
  ecdsaSign : Str → Str → Except Str Str

/-- The exceptions that leave the embedded code. -/
inductive JsError where
  /-- `soliditySha3`: "… is not a valid address, or the checksum is invalid." -/
  | invalidAddress (value : Option Str)
  /-- A `TypeError`: a property of `undefined` was read. -/
  | typeError
  /-- `accounts.sign`: "Private key must be 32 bytes long". -/
  | privateKeyLength
  /-- An exception of the secp256k1 library. -/
  | curve (message : Str)
  /-- A failure of an ethers call (network, artifact lookup, reverted transaction). -/
  | ethers (message : Str)
  /-- `assert.ok` on a falsy value, with the message it was given. -/
  | assertion (message : Str)
  deriving DecidableEq, Repr

/-- `/^0x/i.test(s)`. -/
def has0x : Str → Bool
  | '0' :: 'x' :: _ => true
  | '0' :: 'X' :: _ => true
  | _ => false

/-- `s.replace(/^0x/i, '')`. -/
def strip0x : Str → Str
  | '0' :: 'x' :: rest => rest
  | '0' :: 'X' :: rest => rest
  | s => s

/-- `s.replace('0x', '')`: removes the first occurrence of `0x`, wherever it is. -/
def removeFirst0x : Str → Str
  | [] => []
  | c :: rest =>
    if c = '0' then
      match rest with
      | 'x' :: rest2 => rest2
      | _ => c :: removeFirst0x rest
    else c :: removeFirst0x rest

/-- A hexadecimal digit of either case, `[0-9a-f]` under the `i` flag. -/
def isHexChar (c : Char) : Bool := (hexValue c).isSome

/-- A character of `[0-9a-f]`. -/
def isLowerHexChar (c : Char) : Bool :=
  (48 ≤ c.toNat ∧ c.toNat ≤ 57) ∨ (97 ≤ c.toNat ∧ c.toNat ≤ 102)

/-- A character of `[0-9A-F]`. -/
def isUpperHexChar (c : Char) : Bool :=
  (48 ≤ c.toNat ∧ c.toNat ≤ 57) ∨ (65 ≤ c.toNat ∧ c.toNat ≤ 70)

/-- `web3.utils.isAddress`: the string is 40 hexadecimal digits after an optional `0x`
(`/^(0x)?[0-9a-f]{40}$/i`), and is either of one case throughout or passes the EIP-55
checksum test. -/
def isAddress (P : Web3Primitives) (address : Str) : Bool :=
  let digits := strip0x address
  if ¬ (digits.length = 40 ∧ digits.all isHexChar) then false
  else if digits.all isLowerHexChar ∨ digits.all isUpperHexChar then true
  else P.checkAddressChecksum address

/-- The lowercase form of a letter `A`-`Z`; any other character is kept. -/
def lowerChar (c : Char) : Char :=
  if 65 ≤ c.toNat ∧ c.toNat ≤ 90 then Char.ofNat (c.toNat + 32) else c

/-- `String.prototype.toLowerCase` on the characters an address string consists of: the
letters `A`-`Z` are lowered, every other character of the ASCII range is kept. -/
def toLowerCase (s : Str) : Str := s.map lowerChar

/-- `web3.utils.leftPad(s, chars)` with the default sign `0`: zeros in front of the digits
up to `chars` digits, the `0x` prefix kept when there is one. -/
def leftPad (s : Str) (chars : Nat) : Str :=
  let digits := strip0x s
  (if has0x s then "0x".toList else []) ++ List.replicate (chars - digits.length) '0'
    ++ digits

/-- The zero octets at the front of a buffer removed (`str.replace(/^(?:\u0000)*/, '')` on
a UTF-8 encoded string). -/
def dropLeadingNul (bs : List Byte) : List Byte := bs.dropWhile (· = 0)

/-- The "remove \u0000 padding from either side" step of `web3.utils.utf8ToHex`: strip at
the front, reverse, strip at the front, reverse. -/
def stripNulPadding (bs : List Byte) : List Byte :=
  (dropLeadingNul (dropLeadingNul bs).reverse).reverse

/-- The string starts or ends with the character U+0000. -/
def nulPadded (s : Str) : Bool :=
  s.head? = some (Char.ofNat 0) || s.getLast? = some (Char.ofNat 0)

/-- `web3.utils.utf8ToHex`: the string is UTF-8 encoded, zero octets are removed from either
side, and the rest is written as `0x` followed by two hex digits per octet. -/
def utf8ToHex (s : Str) : Str :=
  "0x".toList ++ bufferToHexString (stripNulPadding (utf8Encode s))

/-- The digest `web3.utils.sha3` treats as "nothing was hashed": Keccak-256 of the empty
input, as the constant `SHA3_NULL_S` spells it. -/
def SHA3_NULL_S : Str :=
  "0xc5d2460186f7233c927e7db2dcc703c0e500b653ca82273b7bfad8045d85a470".toList

/-- The buffer `web3.utils.sha3` hashes when its argument is `0x` followed by an even
number of hex digits, the shape `soliditySha3` passes: the decoded octets. -/
def sha3Input (value : Str) : List Byte := bufferFromHex (strip0x value)

/-- `web3.utils.sha3` on such an argument: `0x` and the hex digits of the Keccak-256 digest
of `sha3Input value`, or `null` when that text equals `SHA3_NULL_S`. -/
def sha3 (P : Web3Primitives) (value : Str) : Option Str :=
  let returnValue := "0x".toList ++ bufferToHexString (P.keccak256 (sha3Input value))
  if returnValue = SHA3_NULL_S then none else some returnValue

/-- An argument `{ t: …, v: … }` of `soliditySha3`, for the two types the signer uses. The
value of an `address` argument may be `undefined`. -/
inductive SolidityArg where
  | address (v : Option Str)
  | string (v : Str)

/-- The packing of one `soliditySha3` argument, `_solidityPack` followed by
`.replace('0x', '')`: the hex digits of the tightly packed value.

* `string`: `utf8ToHex(value)`.
* `address`: `isAddress(value)` is required, otherwise an exception is thrown; the digits are
  `leftPad(value.toLowerCase(), 40)`. -/
def solidityPack (P : Web3Primitives) : SolidityArg → Except JsError Str
  | .string v => .ok (removeFirst0x (utf8ToHex v))
  | .address none => .error (.invalidAddress none)
  | .address (some v) =>
    if isAddress P v then .ok (removeFirst0x (leftPad (toLowerCase v) 40))
    else .error (.invalidAddress (some v))

/-- The `args.map(...)` of `soliditySha3`: the packings of the arguments in order; the first
argument that is refused ends the call with its exception. -/
def solidityPackAll (P : Web3Primitives) : List SolidityArg → Except JsError (List Str)
  | [] => .ok []
  | arg :: rest =>
    match solidityPack P arg with
    | .error e => .error e
    | .ok hexArg =>
      match solidityPackAll P rest with
      | .error e => .error e
      | .ok hexArgs => .ok (hexArg :: hexArgs)

/-- The hex text `soliditySha3` hands to `sha3`: `'0x' + hexArgs.join('')`. -/
def solidityPacked (P : Web3Primitives) (args : List SolidityArg) : Except JsError Str :=
  (solidityPackAll P args).map fun hexArgs => "0x".toList ++ hexArgs.flatten

/-- `web3.utils.soliditySha3(...args)`: every argument is packed, the packings are joined
and hashed by `sha3`. -/
def soliditySha3 (P : Web3Primitives) (args : List SolidityArg) : Except JsError (Option Str) :=
  (solidityPacked P args).map (sha3 P)

/-! ## signMessage.js: hashing, signing, the entry point -/

/-- `mintMsgHash`: `web3.utils.soliditySha3(address recipient, string uri, string newNonce,
address contract) || ""`. -/
def mintMsgHash (P : Web3Primitives) (recipient : Option Str) (uri newNonce : Str)
    (contract : Option Str) : Except JsError Str :=
  (soliditySha3 P
    [.address recipient, .string uri, .string newNonce, .address contract]).map
    fun r => r.getD []

/-- The octets `mintMsgHash` feeds to Keccak-256. -/
def mintMsgPreimage (P : Web3Primitives) (recipient : Option Str) (uri newNonce : Str)
    (contract : Option Str) : Except JsError (List Byte) :=
  (solidityPacked P
    [.address recipient, .string uri, .string newNonce, .address contract]).map sha3Input

/-- The 20 octets an address string denotes: its hex digits after the optional `0x`,
decoded. -/
def addressBytes (address : Str) : List Byte := bufferFromHex (strip0x address)

/-- The fields of the object `web3.eth.accounts.sign` returns that `Signing` reads (the
object also carries `v`, `r` and `s`, cut out of `signature`). -/
structure SignResult where
  message : Str
  messageHash : Str
  signature : Str
  deriving DecidableEq, Repr

/-- `privateKey.startsWith('0x')`. -/
def startsWith0x : Str → Bool
  | '0' :: 'x' :: _ => true
  | _ => false

/-- The key `accounts.sign` signs with: `0x` is put in front of a key that does not start
with it. -/
def keyWith0x (privateKey : Str) : Str :=
  if startsWith0x privateKey then privateKey else "0x".toList ++ privateKey

/-- `web3.eth.accounts.sign(data, privateKey)`: a missing `0x` is put in front of the key,
a key that is then not 66 characters long is refused, and the prefixed hash of `data` is
signed. The object returned echoes `data` as `message`. Reading `startsWith` of an
`undefined` key is a `TypeError`. -/
def accountsSign (P : Web3Primitives) (data : Str) (privateKey : Option Str) :
    Except JsError SignResult :=
  match privateKey with
  | none => .error .typeError
  | some key =>
    if jsLength (keyWith0x key) ≠ 66 then .error .privateKeyLength
    else
      let hash := P.hashMessage data
      match P.ecdsaSign hash (keyWith0x key) with
      | .error m => .error (.curve m)
      | .ok signature => .ok { message := data, messageHash := hash, signature := signature }

/-- `signMessage`: `web3.eth.accounts.sign(msgHash, privateKey)`. -/
def signMessage (P : Web3Primitives) (msgHash : Str) (privateKey : Option Str) :
    Except JsError SignResult :=
  accountsSign P msgHash privateKey

/-- The object `config` that `Signing` reads (`signMessage.js` uses it without declaring it,
so it is a parameter here); a property that is not set is `undefined`. -/
structure Config where
  ContractAddress : Option Str
  PrivateKey : Option Str

/-- The record `Signing` returns. -/
structure MintAuthorization where
  uri : Str
  nonce : Str
  hash : Str
  signature : Str
  deriving DecidableEq, Repr

/-- `Signing(address, uri)`: a nonce is generated, the mint message is hashed, the hash is
signed, and `{ uri, nonce, hash: signner.message, signature: signner.signature }` is
returned. An exception of a step ends the call. -/
def Signing (P : Web3Primitives) (crypto : Crypto) (config : Config) (address uri : Str) :
    Except JsError MintAuthorization :=
  let newNonce := generateNonce crypto
  match mintMsgHash P (some address) uri newNonce config.ContractAddress with
  | .error e => .error e
  | .ok hash =>
    match signMessage P hash config.PrivateKey with
    | .error e => .error e
    | .ok signner =>
      .ok { uri := uri, nonce := newNonce, hash := signner.message,
            signature := signner.signature }

/-! ## JavaScript built-ins used by the scripts -/

/-- The characters `parseInt` skips at the front of its input: white space and line
terminators (`StrWhiteSpaceChar`). -/
def isStrWhiteSpaceChar (c : Char) : Bool :=
  let v := c.toNat
  v = 0x09 ∨ v = 0x0A ∨ v = 0x0B ∨ v = 0x0C ∨ v = 0x0D ∨ v = 0x20 ∨ v = 0xA0 ∨ v = 0x1680
    ∨ (0x2000 ≤ v ∧ v ≤ 0x200A) ∨ v = 0x2028 ∨ v = 0x2029 ∨ v = 0x202F ∨ v = 0x205F
    ∨ v = 0x3000 ∨ v = 0xFEFF

/-- A digit of radix `R` (10 or 16). -/
def isRadixDigit (R : Nat) (c : Char) : Bool :=
  match hexValue c with
  | some d => d < R
  | none => false

/-- The number a string of radix-`R` digits denotes. -/
def digitsValue (R : Nat) (digits : Str) : Nat :=
  digits.foldl (fun acc c => acc * R + (hexValue c).getD 0) 0

/-- `parseInt(input)` with no radix argument; `none` is `NaN`. The input is converted to a
string (`undefined` becomes `"undefined"`), leading white space is skipped, a sign is read,
`0x` or `0X` selects radix 16 (radix 10 otherwise), and the longest run of digits that
follows is the value; there is no value when the run is empty. The value is the
mathematical integer: the rounding of a result beyond 2^53 to a double is not part of this
embedding (it changes neither whether the result is `NaN` nor whether it is zero). -/
def parseInt (input : Option Str) : Option Int :=
  let inputString := input.getD "undefined".toList
  let S := inputString.dropWhile isStrWhiteSpaceChar
  let signed : Int × Str :=
    match S with
    | '-' :: rest => (-1, rest)
    | '+' :: rest => (1, rest)
    | _ => (1, S)
  let radixed : Nat × Str :=
    if has0x signed.2 then (16, signed.2.drop 2) else (10, signed.2)
  let Z := radixed.2.takeWhile (isRadixDigit radixed.1)
  if Z = [] then none else some (signed.1 * (digitsValue radixed.1 Z : Int))

/-- Truthiness of a number: `NaN` and zero are falsy. -/
def truthyNumber : Option Int → Bool
  | none => false
  | some n => n ≠ 0

/-- Truthiness of a string or `undefined`: `undefined` and the empty string are falsy. -/
def truthyString : Option Str → Bool
  | none => false
  | some s => s ≠ []

/-- `assert.ok(value, message)` on the truthiness of `value`. -/
def assertOk (truthy : Bool) (message : Str) : Except JsError Unit :=
  if truthy then .ok () else .error (.assertion message)

/-! ## scripts/deploy.js -/

/-- The constructor argument of a deployment: a JavaScript number (`none` is `NaN`) or an
address string. -/
inductive DeployArg where
  | number (n : Option Int)
  | address (a : Str)
  deriving DecidableEq, Repr

/-- What a run of the deploy script does to the outside world, in order. -/
inductive Event where
  /-- `factory.deploy(arg)` was called on the factory of `contract`. -/
  | deploy (contract : Str) (arg : DeployArg)
  /-- `console.log(line)`. -/
  | log (line : Str)
  /-- `console.error(error)`. -/
  | error (e : JsError)
  deriving DecidableEq, Repr

/-- The ethers calls of the deploy script. Each takes the events so far, so that an outcome
may depend on what was deployed before; a failure carries its message.

* `getContractFactory h name`: `ethers.getContractFactory(name)`.
* `deploy h name arg`: `factory.deploy(arg)`, giving the `address` of the contract object.
* `deployed h address`: `contract.deployed()`. -/
structure Ethers where
  getContractFactory : List Event → Str → Except Str Unit
  deploy : List Event → Str → DeployArg → Except Str Str
  deployed : List Event → Str → Except Str Unit

/-- The contract name `"AuctionHouse"`. -/
def auctionHouse : Str := "AuctionHouse".toList

/-- The contract name `"RMDSNFT"`. -/
def rmdsNft : Str := "RMDSNFT".toList

/-- The text `"NFT deployed at: "` of the first line printed. -/
def nftLine : Str := "NFT deployed at: ".toList

/-- The text `"AuctionHouse deployed at: "` of the second line printed. -/
def auctionHouseLine : Str := "AuctionHouse deployed at: ".toList

/-- The message of the `FEE_PERCENT` assertion. -/
def feePercentMessage : Str := "The \"FEE_PERCENT\" environment variable is required".toList

/-- `main` of `scripts/deploy.js`, with the value of `process.env.FEE_PERCENT`: the events
of the run and how it ended. -/
def main (FEE_PERCENT : Option Str) (ethers : Ethers) : List Event × Except JsError Unit :=
  match ethers.getContractFactory [] auctionHouse with
  | .error m => ([], .error (.ethers m))
  | .ok _ =>
  let feePercent := parseInt FEE_PERCENT
  match assertOk (truthyNumber feePercent) feePercentMessage with
  | .error e => ([], .error e)
  | .ok _ =>
  let t1 := [Event.deploy auctionHouse (.number feePercent)]
  match ethers.deploy [] auctionHouse (.number feePercent) with
  | .error m => (t1, .error (.ethers m))
  | .ok marketPlaceAddress =>
  match ethers.deployed t1 marketPlaceAddress with
  | .error m => (t1, .error (.ethers m))
  | .ok _ =>
  match ethers.getContractFactory t1 rmdsNft with
  | .error m => (t1, .error (.ethers m))
  | .ok _ =>
  let t2 := t1 ++ [Event.deploy rmdsNft (.address marketPlaceAddress)]
  match ethers.deploy t1 rmdsNft (.address marketPlaceAddress) with
  | .error m => (t2, .error (.ethers m))
  | .ok nftTokenAddress =>
  match ethers.deployed t2 nftTokenAddress with
  | .error m => (t2, .error (.ethers m))
  | .ok _ =>
  (t2 ++ [Event.log (nftLine ++ nftTokenAddress),
          Event.log (auctionHouseLine ++ marketPlaceAddress)], .ok ())

/-- The script around `main`: exit code 0 when `main` resolves; otherwise the error is
printed and the exit code is 1. -/
def deployScript (FEE_PERCENT : Option Str) (ethers : Ethers) : List Event × Nat :=
  match main FEE_PERCENT ethers with
  | (events, .ok _) => (events, 0)
  | (events, .error e) => (events ++ [Event.error e], 1)

/-! ## hardhat.config.js -/

/-- One entry of `networks`; an account is the value of `privateKey`. -/
structure NetworkConfig where
  name : Str
  url : Option Str
  chainId : Option Nat
  gasPrice : Option Nat
  accounts : List (Option Str)
  deriving DecidableEq, Repr

/-- The object assigned to `module.exports`. -/
structure HardhatUserConfig where
  solidityVersion : Str
  optimizerEnabled : Bool
  optimizerRuns : Nat
  defaultNetwork : Str
  networks : List NetworkConfig
  sources : Str
  tests : Str
  cache : Str
  artifacts : Str
  mochaTimeout : Nat
  deriving DecidableEq, Repr

/-- The message of the `PRIVATE_KEY` assertion. -/
def privateKeyMessage : Str := "The \"PRIVATE_KEY\" environment variable is required".toList

/-- Loading `hardhat.config.js` with the value of `process.env.PRIVATE_KEY`: the assertion
on the key comes first, the exported object after it. -/
def hardhatConfig (PRIVATE_KEY : Option Str) : Except JsError HardhatUserConfig :=
  let privateKey := PRIVATE_KEY
  match assertOk (truthyString privateKey) privateKeyMessage with
  | .error e => .error e
  | .ok _ =>
    .ok {
      solidityVersion := "0.8.7".toList
      optimizerEnabled := true
      optimizerRuns := 200
      defaultNetwork := "testnet".toList
      networks := [
        { name := "localhost".toList, url := some "http://127.0.0.1:8545".toList,
          chainId := none, gasPrice := none, accounts := [] },
        { name := "hardhat".toList, url := none, chainId := none, gasPrice := none,
          accounts := [] },
        { name := "testnet".toList, url := some "https://http-testnet.cube.network".toList,
          chainId := some 1819, gasPrice := some 20000000000, accounts := [privateKey] },
        { name := "mainnet".toList, url := some "https://http-mainnet.cube.network".toList,
          chainId := some 1818, gasPrice := some 20000000000, accounts := [privateKey] }]
      sources := "./contracts".toList
      tests := "./test".toList
      cache := "./cache".toList
      artifacts := "./artifacts".toList
      mochaTimeout := 20000 }

/-! ## Values for evaluating the definitions -/

/-- Stand-ins for the cryptographic primitives, for evaluating the definitions at concrete
inputs: the digest of a buffer is the buffer, no mixed-case address passes the checksum
test, and a signature is the hash followed by the key. -/
def samplePrimitives : Web3Primitives where
  keccak256 := fun bs => bs
  checkAddressChecksum := fun _ => false
  hashMessage := fun data => data
  ecdsaSign := fun hash key => .ok (hash ++ key)

/-- A random source that returns zero octets. -/
def sampleCrypto : Crypto where
  randomBytes := fun n => List.replicate n 0
  randomBytes_length := fun n => List.length_replicate n 0

/-- The recipient of the specification's example. -/
def sampleRecipient : Str := "0x1111111111111111111111111111111111111111".toList

/-- The same recipient, written with the prefix `0X`. -/
def sampleRecipientUpper : Str := "0X1111111111111111111111111111111111111111".toList

/-- The contract address of the specification's example. -/
def sampleContract : Str := "0x2222222222222222222222222222222222222222".toList

/-- The uri of the specification's example. -/
def sampleUri : Str := "ipfs://abc".toList

/-- The nonce of the specification's example. -/
def sampleNonce : Str := "deadbeefdeadbeefdeadbeefdeadbeef".toList

/-- A private key of 64 hex digits. -/
def sampleKey : Str :=
  "0x4c0883a69102937d6231471b5dbb6204fe5129617082792ae468d01a3f362318".toList

/-- A configuration with both properties set. -/
def sampleConfig : Config where
  ContractAddress := some sampleContract
  PrivateKey := some sampleKey

/-- An ethers object on which every call succeeds; a contract's address is its name. -/
def sampleEthers : Ethers where
  getContractFactory := fun _ _ => .ok ()
  deploy := fun _ name _ => .ok name
  deployed := fun _ _ => .ok ()

/-! ## Lemmas on the hexadecimal codec -/

theorem hexValue_hexDigit (n : Nat) (h : n < 16) : hexValue (hexDigit n) = some n := by
  have key : ∀ k : Fin 16, hexValue (hexDigit k.val) = some k.val := by decide
  exact key ⟨n, h⟩

theorem hexDigit_mem (n : Nat) (h : n < 16) : hexDigit n ∈ "0123456789abcdef".toList := by
  have key : ∀ k : Fin 16, hexDigit k.val ∈ "0123456789abcdef".toList := by decide
  exact key ⟨n, h⟩

theorem byte_div_mod (b : Byte) : byte (b.val / 16 * 16 + b.val % 16) = b := by
  apply Fin.ext
  have hb := b.isLt
  simp only [byte]
  omega

theorem bufferToHexString_cons (b : Byte) (bs : List Byte) :
    bufferToHexString (b :: bs)
      = hexDigit (b.val / 16) :: hexDigit (b.val % 16) :: bufferToHexString bs := by
  simp [bufferToHexString, byteToHex]

theorem bufferToHexString_append (xs ys : List Byte) :
    bufferToHexString (xs ++ ys) = bufferToHexString xs ++ bufferToHexString ys := by
  simp [bufferToHexString]

theorem bufferToHexString_length (bs : List Byte) :
    (bufferToHexString bs).length = 2 * bs.length := by
  induction bs with
  | nil => rfl
  | cons b bs ih => rw [bufferToHexString_cons]; simp [ih]; omega

theorem bufferToHexString_mem (bs : List Byte) :
    ∀ c ∈ bufferToHexString bs, c ∈ "0123456789abcdef".toList := by
  induction bs with
  | nil => intro c hc; simp [bufferToHexString] at hc
  | cons b bs ih =>
    intro c hc
    rw [bufferToHexString_cons] at hc
    have hb := b.isLt
    rcases List.mem_cons.mp hc with h | hc
    · subst h; exact hexDigit_mem _ (by omega)
    rcases List.mem_cons.mp hc with h | hc
    · subst h; exact hexDigit_mem _ (by omega)
    · exact ih c hc

theorem bufferFromHex_toHexString (bs : List Byte) :
    bufferFromHex (bufferToHexString bs) = bs := by
  induction bs with
  | nil => rfl
  | cons b bs ih =>
    have hb := b.isLt
    rw [bufferToHexString_cons, bufferFromHex,
      hexValue_hexDigit _ (by omega), hexValue_hexDigit _ (by omega)]
    simp only [ih, byte_div_mod]

theorem bufferFromHex_toHexString_append (bs : List Byte) (t : Str) :
    bufferFromHex (bufferToHexString bs ++ t) = bs ++ bufferFromHex t := by
  induction bs with
  | nil => rfl
  | cons b bs ih =>
    have hb := b.isLt
    rw [bufferToHexString_cons]
    simp only [List.cons_append]
    rw [bufferFromHex, hexValue_hexDigit _ (by omega), hexValue_hexDigit _ (by omega)]
    simp only [ih, byte_div_mod, List.cons_append]

theorem char_lt_of_hex (c : Char) (h : isHexChar c = true) : c.toNat < 128 := by
  unfold isHexChar hexValue at h
  simp only at h
  split at h
  · omega
  · split at h
    · omega
    · split at h
      · omega
      · simp at h

theorem ascii_cases (Q : Char → Prop) (hQ : ∀ k : Fin 128, Q (Char.ofNat k.val)) (c : Char)
    (hc : c.toNat < 128) : Q c := by
  have := hQ ⟨c.toNat, hc⟩
  simpa using this

theorem hexValue_lowerChar (c : Char) (h : isHexChar c = true) :
    hexValue (lowerChar c) = hexValue c := by
  have key : ∀ k : Fin 128, isHexChar (Char.ofNat k.val) = true →
      hexValue (lowerChar (Char.ofNat k.val)) = hexValue (Char.ofNat k.val) := by decide
  exact ascii_cases (fun c => isHexChar c = true → hexValue (lowerChar c) = hexValue c) key c
    (char_lt_of_hex c h) h

theorem lowerChar_ne_x (c : Char) (h : isHexChar c = true) :
    lowerChar c ≠ 'x' ∧ lowerChar c ≠ 'X' ∧ c ≠ 'x' ∧ c ≠ 'X' := by
  have key : ∀ k : Fin 128, isHexChar (Char.ofNat k.val) = true →
      lowerChar (Char.ofNat k.val) ≠ 'x' ∧ lowerChar (Char.ofNat k.val) ≠ 'X'
        ∧ Char.ofNat k.val ≠ 'x' ∧ Char.ofNat k.val ≠ 'X' := by decide
  exact ascii_cases (fun c => isHexChar c = true →
    lowerChar c ≠ 'x' ∧ lowerChar c ≠ 'X' ∧ c ≠ 'x' ∧ c ≠ 'X') key c (char_lt_of_hex c h) h

theorem isHexChar_iff (c : Char) : isHexChar c = true ↔ ∃ d, hexValue c = some d ∧ d < 16 := by
  unfold isHexChar hexValue
  simp only
  split
  · simp; omega
  · split
    · simp; omega
    · split
      · simp; omega
      · simp

/-- Decoding an even number of hex digits, in either case, in front of more text. -/
theorem bufferFromHex_lower_append : ∀ (digits t : Str), digits.all isHexChar = true →
    digits.length % 2 = 0 →
    bufferFromHex (toLowerCase digits ++ t) = bufferFromHex digits ++ bufferFromHex t
  | [], t, _, _ => by simp [toLowerCase, bufferFromHex]
  | [_], _, _, h => by simp at h
  | c1 :: c2 :: rest, t, hall, hlen => by
    have h1 : isHexChar c1 = true := by simp [List.all_cons] at hall; exact hall.1
    have h2 : isHexChar c2 = true := by simp [List.all_cons] at hall; exact hall.2.1
    have hr : rest.all isHexChar = true := by
      simp only [List.all_cons, Bool.and_eq_true] at hall; exact hall.2.2
    have hl : rest.length % 2 = 0 := by simp at hlen; omega
    obtain ⟨d1, e1, _⟩ := (isHexChar_iff c1).mp h1
    obtain ⟨d2, e2, _⟩ := (isHexChar_iff c2).mp h2
    have ih := bufferFromHex_lower_append rest t hr hl
    simp only [toLowerCase, List.map_cons, List.cons_append] at ih ⊢
    rw [bufferFromHex, bufferFromHex, hexValue_lowerChar c1 h1, hexValue_lowerChar c2 h2, e1, e2]
    simp only [ih, List.cons_append]

theorem bufferFromHex_length : ∀ (digits : Str), digits.all isHexChar = true →
    digits.length % 2 = 0 → (bufferFromHex digits).length * 2 = digits.length
  | [], _, _ => by simp [bufferFromHex]
  | [_], _, h => by simp at h
  | c1 :: c2 :: rest, hall, hlen => by
    have h1 : isHexChar c1 = true := by simp [List.all_cons] at hall; exact hall.1
    have h2 : isHexChar c2 = true := by simp [List.all_cons] at hall; exact hall.2.1
    have hr : rest.all isHexChar = true := by
      simp only [List.all_cons, Bool.and_eq_true] at hall; exact hall.2.2
    have hl : rest.length % 2 = 0 := by simp at hlen; omega
    obtain ⟨d1, e1, _⟩ := (isHexChar_iff c1).mp h1
    obtain ⟨d2, e2, _⟩ := (isHexChar_iff c2).mp h2
    have ih := bufferFromHex_length rest hr hl
    rw [bufferFromHex, e1, e2]
    simp only [List.length_cons]
    omega

theorem has0x_true (s : Str) (h : has0x s = true) :
    ∃ p rest, (p = 'x' ∨ p = 'X') ∧ s = '0' :: p :: rest ∧ strip0x s = rest := by
  unfold has0x at h
  split at h
  · exact ⟨'x', _, Or.inl rfl, rfl, rfl⟩
  · exact ⟨'X', _, Or.inr rfl, rfl, rfl⟩
  · simp at h

theorem has0x_false (s : Str) (h : has0x s = false) : strip0x s = s := by
  unfold strip0x
  split
  · simp [has0x] at h
  · simp [has0x] at h
  · rfl

theorem removeFirst0x_of_no_x : ∀ (s : Str), (∀ c ∈ s, c ≠ 'x') → removeFirst0x s = s
  | [], _ => rfl
  | c :: rest, h => by
    have ih := removeFirst0x_of_no_x rest (fun d hd => h d (List.mem_cons_of_mem _ hd))
    unfold removeFirst0x
    split
    · split
      · exact absurd rfl (h 'x' (by simp))
      · rw [ih]
    · rw [ih]

theorem isAddress_digits (P : Web3Primitives) (a : Str) (h : isAddress P a = true) :
    (strip0x a).length = 40 ∧ (strip0x a).all isHexChar = true := by
  unfold isAddress at h
  simp only at h
  split at h
  · simp at h
  · rename_i hd
    simpa using hd

theorem toLowerCase_mem_ne_x (digits : Str) (h : digits.all isHexChar = true) :
    ∀ c ∈ toLowerCase digits, c ≠ 'x' := by
  intro c hc
  simp only [toLowerCase, List.mem_map] at hc
  obtain ⟨d, hd, rfl⟩ := hc
  exact (lowerChar_ne_x d (List.all_eq_true.mp h d hd)).1

theorem has0x_hexDigits (digits : Str) (h : digits.all isHexChar = true) :
    has0x digits = false := by
  unfold has0x
  split
  · simp only [List.all_cons, Bool.and_eq_true] at h
    exact absurd rfl (lowerChar_ne_x 'x' h.2.1).2.2.1
  · simp only [List.all_cons, Bool.and_eq_true] at h
    exact absurd rfl (lowerChar_ne_x 'X' h.2.1).2.2.2
  · rfl

theorem toLowerCase_all_hex (digits : Str) (h : digits.all isHexChar = true) :
    (toLowerCase digits).all isHexChar = true := by
  rw [List.all_eq_true] at h ⊢
  intro c hc
  simp only [toLowerCase, List.mem_map] at hc
  obtain ⟨d, hd, rfl⟩ := hc
  have := hexValue_lowerChar d (h d hd)
  have hd' := h d hd
  unfold isHexChar at hd' ⊢
  rw [this]; exact hd'

/-- The packing of a valid address is the lowercase form of its 40 digits. -/
theorem pack_address (P : Web3Primitives) (a : Str) (h : isAddress P a = true) :
    removeFirst0x (leftPad (toLowerCase a) 40) = toLowerCase (strip0x a) := by
  obtain ⟨hlen, hall⟩ := isAddress_digits P a h
  have hlow := toLowerCase_mem_ne_x _ hall
  cases hp : has0x a with
  | true =>
    obtain ⟨p, rest, hpx, ha, hs⟩ := has0x_true a hp
    rw [hs] at hlen hall hlow ⊢
    have hl : toLowerCase a = '0' :: 'x' :: toLowerCase rest := by
      subst ha
      rcases hpx with rfl | rfl <;> simp [toLowerCase] <;> decide
    rw [hl]
    have : leftPad ('0' :: 'x' :: toLowerCase rest) 40 = '0' :: 'x' :: toLowerCase rest := by
      simp [leftPad, has0x, strip0x, toLowerCase, hlen]
    rw [this]
    simp [removeFirst0x]
  | false =>
    have hs := has0x_false a hp
    rw [hs] at hlen hall hlow ⊢
    have hp2 : has0x (toLowerCase a) = false :=
      has0x_hexDigits _ (toLowerCase_all_hex a hall)
    have hl : (toLowerCase a).length = 40 := by simp [toLowerCase, hlen]
    have : leftPad (toLowerCase a) 40 = toLowerCase a := by
      simp [leftPad, hp2, has0x_false _ hp2, hl]
    rw [this]
    exact removeFirst0x_of_no_x _ hlow

theorem removeFirst0x_utf8ToHex (s : Str) :
    removeFirst0x (utf8ToHex s) = bufferToHexString (stripNulPadding (utf8Encode s)) := by
  simp [utf8ToHex, removeFirst0x]

theorem solidityPack_address (P : Web3Primitives) (a : Str) (h : isAddress P a = true) :
    solidityPack P (.address (some a)) = .ok (toLowerCase (strip0x a)) := by
  simp [solidityPack, h, pack_address P a h]

theorem solidityPack_address_invalid (P : Web3Primitives) (a : Str)
    (h : isAddress P a = false) :
    solidityPack P (.address (some a)) = .error (.invalidAddress (some a)) := by
  simp [solidityPack, h]

theorem solidityPack_string (P : Web3Primitives) (s : Str) :
    solidityPack P (.string s) = .ok (bufferToHexString (stripNulPadding (utf8Encode s))) := by
  simp [solidityPack, removeFirst0x_utf8ToHex]

theorem solidityPacked_mint (P : Web3Primitives) (r u n c : Str)
    (hr : isAddress P r = true) (hc : isAddress P c = true) :
    solidityPacked P [.address (some r), .string u, .string n, .address (some c)]
      = .ok ('0' :: 'x' :: (toLowerCase (strip0x r)
          ++ (bufferToHexString (stripNulPadding (utf8Encode u))
          ++ (bufferToHexString (stripNulPadding (utf8Encode n))
          ++ toLowerCase (strip0x c))))) := by
  simp [solidityPacked, solidityPackAll, solidityPack_address P r hr,
    solidityPack_address P c hc, solidityPack_string, Except.map]

theorem addressBytes_length (P : Web3Primitives) (a : Str) (h : isAddress P a = true) :
    (addressBytes a).length = 20 := by
  obtain ⟨hlen, hall⟩ := isAddress_digits P a h
  have := bufferFromHex_length _ hall (by omega)
  unfold addressBytes
  omega

theorem bufferFromHex_lower (digits : Str) (hall : digits.all isHexChar = true)
    (hlen : digits.length % 2 = 0) :
    bufferFromHex (toLowerCase digits) = bufferFromHex digits := by
  have := bufferFromHex_lower_append digits [] hall hlen
  simpa [bufferFromHex] using this

theorem sha3Input_0x (digits : Str) : sha3Input ('0' :: 'x' :: digits) = bufferFromHex digits :=
  rfl

/-- An address of 40 lowercase hex digits is valid whatever the checksum test says. -/
theorem isAddress_lower (P : Web3Primitives) (a : Str)
    (h : (strip0x a).length = 40 ∧ (strip0x a).all isHexChar = true
      ∧ (strip0x a).all isLowerHexChar = true) : isAddress P a = true := by
  unfold isAddress
  simp [h.1, h.2.1, h.2.2]

theorem mintMsgPreimage_eq (P : Web3Primitives) (r u n c : Str)
    (hr : isAddress P r = true) (hc : isAddress P c = true) :
    mintMsgPreimage P (some r) u n (some c)
      = .ok (addressBytes r ++ stripNulPadding (utf8Encode u)
          ++ stripNulPadding (utf8Encode n) ++ addressBytes c) := by
  obtain ⟨hrl, hra⟩ := isAddress_digits P r hr
  obtain ⟨hcl, hca⟩ := isAddress_digits P c hc
  rw [mintMsgPreimage, solidityPacked_mint P r u n c hr hc]
  simp only [Except.map, sha3Input_0x, addressBytes]
  rw [bufferFromHex_lower_append _ _ hra (by omega), bufferFromHex_toHexString_append,
    bufferFromHex_toHexString_append, bufferFromHex_lower _ hca (by omega)]
  simp only [List.append_assoc]

theorem mintMsgHash_eq (P : Web3Primitives) (r c : Option Str) (uri nonce : Str) :
    mintMsgHash P r uri nonce c
      = (mintMsgPreimage P r uri nonce c).map fun pre =>
          if "0x".toList ++ bufferToHexString (P.keccak256 pre) = SHA3_NULL_S then []
          else "0x".toList ++ bufferToHexString (P.keccak256 pre) := by
  unfold mintMsgHash mintMsgPreimage soliditySha3
  cases solidityPacked P [.address r, .string uri, .string nonce, .address c] with
  | error e => rfl
  | ok v =>
    simp only [Except.map, sha3]
    split <;> simp

/-- With two valid addresses `mintMsgHash` returns: the hex text of the digest of the packed
octets, or the empty string when that text is `SHA3_NULL_S`. -/
theorem mintMsgHash_valid (P : Web3Primitives) (r u n c : Str)
    (hr : isAddress P r = true) (hc : isAddress P c = true) :
    mintMsgHash P (some r) u n (some c)
      = .ok (if "0x".toList ++ bufferToHexString (P.keccak256
                (addressBytes r ++ stripNulPadding (utf8Encode u)
                  ++ stripNulPadding (utf8Encode n) ++ addressBytes c)) = SHA3_NULL_S
              then []
              else "0x".toList ++ bufferToHexString (P.keccak256
                (addressBytes r ++ stripNulPadding (utf8Encode u)
                  ++ stripNulPadding (utf8Encode n) ++ addressBytes c))) := by
  rw [mintMsgHash_eq, mintMsgPreimage_eq P _ _ _ _ hr hc]
  rfl

theorem mintMsgHash_invalid_recipient (P : Web3Primitives) (address uri nonce : Str)
    (contract : Option Str) (h : isAddress P address = false) :
    mintMsgHash P (some address) uri nonce contract = .error (.invalidAddress (some address)) := by
  simp [mintMsgHash, soliditySha3, solidityPacked, solidityPackAll,
    solidityPack_address_invalid P address h, Except.map]

theorem truthyNumber_iff (v : Option Int) :
    truthyNumber v = true ↔ ∃ n, v = some n ∧ n ≠ 0 := by
  cases v with
  | none => simp [truthyNumber]
  | some n => simp [truthyNumber]

/-- The run of `main` when the guard refuses the fee. -/
theorem main_guard_fails (fee : Option Str) (E : Ethers)
    (hf : E.getContractFactory [] auctionHouse = .ok ())
    (hp : truthyNumber (parseInt fee) = false) :
    main fee E = ([], .error (.assertion feePercentMessage)) := by
  unfold main
  rw [hf]
  simp only [assertOk, hp]
  rfl

/-- The run of `main` from the first deployment on, when the guard lets the fee pass. -/
theorem main_guard_passes (fee : Option Str) (E : Ethers) (n : Int)
    (hf : E.getContractFactory [] auctionHouse = .ok ())
    (hp : parseInt fee = some n) (hn : n ≠ 0) :
    main fee E =
      (let t1 := [Event.deploy auctionHouse (.number (some n))]
       match E.deploy [] auctionHouse (.number (some n)) with
       | .error m => (t1, .error (.ethers m))
       | .ok marketPlaceAddress =>
       match E.deployed t1 marketPlaceAddress with
       | .error m => (t1, .error (.ethers m))
       | .ok _ =>
       match E.getContractFactory t1 rmdsNft with
       | .error m => (t1, .error (.ethers m))
       | .ok _ =>
       let t2 := t1 ++ [Event.deploy rmdsNft (.address marketPlaceAddress)]
       match E.deploy t1 rmdsNft (.address marketPlaceAddress) with
       | .error m => (t2, .error (.ethers m))
       | .ok nftTokenAddress =>
       match E.deployed t2 nftTokenAddress with
       | .error m => (t2, .error (.ethers m))
       | .ok _ =>
       (t2 ++ [Event.log (nftLine ++ nftTokenAddress),
               Event.log (auctionHouseLine ++ marketPlaceAddress)],
         .ok ())) := by
  unfold main
  rw [hf]
  simp only [hp, assertOk, truthyNumber, hn, ne_eq, not_false_eq_true, decide_True, ite_true]

theorem main_factory_fails (fee : Option Str) (E : Ethers) (m : Str)
    (hf : E.getContractFactory [] auctionHouse = .error m) :
    main fee E = ([], .error (.ethers m)) := by
  unfold main
  rw [hf]

theorem char_toNat_lt (c : Char) : c.toNat < 0x110000 := by
  have h := c.valid
  simp only [UInt32.isValidChar, Nat.isValidChar] at h
  show c.val.toNat < 0x110000
  omega

theorem char_eq_of_toNat (a b : Char) (h : a.toNat = b.toNat) : a = b := by
  rw [← Char.ofNat_toNat a, ← Char.ofNat_toNat b, h]

theorem byte_inj (m n : Nat) (hm : m < 256) (hn : n < 256) (h : byte m = byte n) : m = n := by
  simp only [byte, Fin.mk.injEq] at h
  omega

/-- UTF-8 is prefix-free: the encoding of a character in front of more octets determines
the character and the octets after it. -/
theorem utf8EncodeChar_append_inj (a b : Char) (x y : List Byte)
    (h : utf8EncodeChar a ++ x = utf8EncodeChar b ++ y) : a = b ∧ x = y := by
  have ha := char_toNat_lt a
  have hb := char_toNat_lt b
  unfold utf8EncodeChar at h
  simp only at h
  split at h <;> split at h <;> (try split at h) <;> (try split at h) <;> (try split at h)
    <;> (try split at h)
    <;> simp only [List.cons_append, List.nil_append, List.cons.injEq, byte, Fin.mk.injEq] at h
    <;> first
      | (exfalso; omega)
      | exact ⟨char_eq_of_toNat a b (by omega), by simp only [h]⟩

theorem utf8Encode_cons (c : Char) (s : Str) :
    utf8Encode (c :: s) = utf8EncodeChar c ++ utf8Encode s := by
  simp [utf8Encode]

theorem utf8Encode_append (s t : Str) :
    utf8Encode (s ++ t) = utf8Encode s ++ utf8Encode t := by
  simp [utf8Encode]

theorem utf8EncodeChar_ne_nil (c : Char) : utf8EncodeChar c ≠ [] := by
  unfold utf8EncodeChar
  simp only
  split
  · simp
  · split
    · simp
    · split <;> simp

/-- UTF-8 encoding is injective on strings. -/
theorem utf8Encode_injective : ∀ (s t : Str), utf8Encode s = utf8Encode t → s = t
  | [], [], _ => rfl
  | [], c :: t, h => by
    rw [utf8Encode_cons] at h
    have := utf8EncodeChar_ne_nil c
    cases hc : utf8EncodeChar c with
    | nil => exact absurd hc this
    | cons b bs => rw [hc] at h; simp [utf8Encode] at h
  | c :: s, [], h => by
    rw [utf8Encode_cons] at h
    have := utf8EncodeChar_ne_nil c
    cases hc : utf8EncodeChar c with
    | nil => exact absurd hc this
    | cons b bs => rw [hc] at h; simp [utf8Encode] at h
  | a :: s, b :: t, h => by
    rw [utf8Encode_cons, utf8Encode_cons] at h
    obtain ⟨hab, hst⟩ := utf8EncodeChar_append_inj a b _ _ h
    rw [hab, utf8Encode_injective s t hst]

theorem jsLength_append (s t : Str) : jsLength (s ++ t) = jsLength s + jsLength t := by
  simp [jsLength]

theorem jsLength_eq_zero (s : Str) (h : jsLength s = 0) : s = [] := by
  cases s with
  | nil => rfl
  | cons c s =>
    simp only [jsLength, List.map_cons, List.sum_cons] at h
    split at h <;> omega

/-- Two splittings of one string whose second parts have the same length are equal. -/
theorem append_split_of_jsLength (u1 n1 u2 n2 : Str) (h : u1 ++ n1 = u2 ++ n2)
    (hl : jsLength n1 = jsLength n2) : u1 = u2 ∧ n1 = n2 := by
  rcases List.append_eq_append_iff.mp h with ⟨a, h1, h2⟩ | ⟨a, h1, h2⟩
  · rw [h2, jsLength_append] at hl
    have := jsLength_eq_zero a (by omega)
    subst this
    simp_all
  · rw [h2, jsLength_append] at hl
    have := jsLength_eq_zero a (by omega)
    subst this
    simp_all

theorem dropLeadingNul_id (bs : List Byte) (h : bs.head? ≠ some 0) : dropLeadingNul bs = bs := by
  cases bs with
  | nil => rfl
  | cons b bs =>
    simp only [List.head?_cons, ne_eq, Option.some.injEq] at h
    simp [dropLeadingNul, List.dropWhile_cons, h]

theorem stripNulPadding_id (bs : List Byte) (h1 : bs.head? ≠ some 0)
    (h2 : bs.getLast? ≠ some 0) : stripNulPadding bs = bs := by
  unfold stripNulPadding
  rw [dropLeadingNul_id bs h1, dropLeadingNul_id bs.reverse (by simpa using h2)]
  simp

theorem utf8EncodeChar_head (c : Char) (h : (utf8EncodeChar c).head? = some 0) :
    c = Char.ofNat 0 := by
  have hc := char_toNat_lt c
  apply char_eq_of_toNat
  unfold utf8EncodeChar at h
  simp only at h
  have h0 : (Char.ofNat 0).toNat = 0 := by decide
  rw [h0]
  split at h
  · simp only [List.head?_cons, Option.some.injEq, byte] at h
    have := congrArg Fin.val h
    simp at this
    omega
  · split at h
    · simp only [List.head?_cons, Option.some.injEq, byte] at h
      have := congrArg Fin.val h
      simp at this
      omega
    · split at h
      · simp only [List.head?_cons, Option.some.injEq, byte] at h
        have := congrArg Fin.val h
        simp at this
        omega
      · simp only [List.head?_cons, Option.some.injEq, byte] at h
        have := congrArg Fin.val h
        simp at this
        omega

theorem utf8EncodeChar_getLast (c : Char) (h : (utf8EncodeChar c).getLast? = some 0) :
    c = Char.ofNat 0 := by
  have hc := char_toNat_lt c
  apply char_eq_of_toNat
  unfold utf8EncodeChar at h
  simp only at h
  have h0 : (Char.ofNat 0).toNat = 0 := by decide
  rw [h0]
  split at h
  · simp only [List.getLast?_singleton, Option.some.injEq, byte] at h
    have := congrArg Fin.val h
    simp at this
    omega
  · split at h
    · simp only [List.getLast?_cons_cons, List.getLast?_singleton, Option.some.injEq, byte] at h
      have := congrArg Fin.val h
      simp at this
      omega
    · split at h
      · simp only [List.getLast?_cons_cons, List.getLast?_singleton, Option.some.injEq,
          byte] at h
        have := congrArg Fin.val h
        simp at this
        omega
      · simp only [List.getLast?_cons_cons, List.getLast?_singleton, Option.some.injEq,
          byte] at h
        have := congrArg Fin.val h
        simp at this
        omega

theorem utf8Encode_head (s : Str) (h : (utf8Encode s).head? = some 0) :
    s.head? = some (Char.ofNat 0) := by
  cases s with
  | nil => simp [utf8Encode] at h
  | cons c s =>
    rw [utf8Encode_cons] at h
    cases hc : utf8EncodeChar c with
    | nil => exact absurd hc (utf8EncodeChar_ne_nil c)
    | cons b bs =>
      rw [hc] at h
      simp only [List.cons_append, List.head?_cons] at h
      have : (utf8EncodeChar c).head? = some 0 := by rw [hc]; simpa using h
      simp [utf8EncodeChar_head c this]

theorem utf8Encode_getLast (s : Str) (h : (utf8Encode s).getLast? = some 0) :
    s.getLast? = some (Char.ofNat 0) := by
  rcases List.eq_nil_or_concat s with rfl | ⟨init, c, rfl⟩
  · simp [utf8Encode] at h
  · have hne := utf8EncodeChar_ne_nil c
    have he : utf8Encode (init ++ [c]) = utf8Encode init ++ utf8EncodeChar c := by
      rw [utf8Encode_append, utf8Encode_cons]; simp [utf8Encode]
    rw [List.concat_eq_append] at h ⊢
    rw [he, List.getLast?_append_of_ne_nil _ hne] at h
    simp [utf8EncodeChar_getLast c h]

/-- A string that neither starts nor ends with U+0000 is packed as its UTF-8 encoding. -/
theorem stripNulPadding_utf8Encode (s : Str) (h : nulPadded s = false) :
    stripNulPadding (utf8Encode s) = utf8Encode s := by
  simp only [nulPadded, Bool.or_eq_false_iff, decide_eq_false_iff_not] at h
  exact stripNulPadding_id _ (fun hh => h.1 (utf8Encode_head s hh))
    (fun hh => h.2 (utf8Encode_getLast s hh))

/-! ## Theorems for the claims -/

/-- C3: `generateNonce` returns the hex encoding of the 16 octets drawn from the random
source: the result has exactly 32 characters, each of them one of `0-9 a-f`, and decoding
it as hex gives back the 16 octets drawn. -/
theorem generateNonce_hex (crypto : Crypto) :
    (crypto.randomBytes 16).length = 16
      ∧ (generateNonce crypto).length = 32
      ∧ (∀ c ∈ generateNonce crypto, c ∈ "0123456789abcdef".toList)
      ∧ bufferFromHex (generateNonce crypto) = crypto.randomBytes 16 := by
  refine ⟨crypto.randomBytes_length 16, ?_, ?_, ?_⟩
  · rw [generateNonce, bufferToHexString_length, crypto.randomBytes_length]
  · exact bufferToHexString_mem _
  · exact bufferFromHex_toHexString _

/-- C1 (amended): for every recipient and contract address that `isAddress` accepts and every
uri and nonce, `mintMsgHash` hashes exactly the octets: the 20 octets of the recipient, then
the UTF-8 octets of the uri with the zero octets at its two ends removed, then the UTF-8
octets of the nonce treated the same way, then the 20 octets of the contract, with nothing
between them; it returns `0x` and the hex digits of the Keccak-256 digest of these octets
(the empty string when that text is `SHA3_NULL_S`). -/
theorem mintMsgHash_packed (P : Web3Primitives) (recipient uri nonce contract : Str)
    (hr : isAddress P recipient = true) (hc : isAddress P contract = true) :
    (addressBytes recipient).length = 20 ∧ (addressBytes contract).length = 20
      ∧ mintMsgPreimage P (some recipient) uri nonce (some contract)
          = .ok (addressBytes recipient ++ stripNulPadding (utf8Encode uri)
              ++ stripNulPadding (utf8Encode nonce) ++ addressBytes contract)
      ∧ mintMsgHash P (some recipient) uri nonce (some contract)
          = .ok (if "0x".toList ++ bufferToHexString (P.keccak256
                (addressBytes recipient ++ stripNulPadding (utf8Encode uri)
                  ++ stripNulPadding (utf8Encode nonce) ++ addressBytes contract)) = SHA3_NULL_S
              then []
              else "0x".toList ++ bufferToHexString (P.keccak256
                (addressBytes recipient ++ stripNulPadding (utf8Encode uri)
                  ++ stripNulPadding (utf8Encode nonce) ++ addressBytes contract))) := by
  exact ⟨addressBytes_length P _ hr, addressBytes_length P _ hc,
    mintMsgPreimage_eq P _ _ _ _ hr hc, mintMsgHash_valid P _ _ _ _ hr hc⟩

/-- C1, at the example of the specification: both addresses are valid and the octets hashed
are recipient, uri, nonce, contract. -/
theorem mintMsgHash_packed_sample :
    isAddress samplePrimitives sampleRecipient = true
      ∧ isAddress samplePrimitives sampleContract = true
      ∧ mintMsgPreimage samplePrimitives (some sampleRecipient) sampleUri sampleNonce
          (some sampleContract)
          = .ok (addressBytes sampleRecipient ++ stripNulPadding (utf8Encode sampleUri)
              ++ stripNulPadding (utf8Encode sampleNonce) ++ addressBytes sampleContract) :=
  ⟨by decide, by decide,
    (mintMsgHash_packed samplePrimitives sampleRecipient sampleUri sampleNonce sampleContract
      (by decide) (by decide)).2.2.1⟩

/-- C1 as stated fails for the uri `"\u0000"`: whatever the primitives, the octets hashed
are recipient, nonce, contract, without the zero octet that is the UTF-8 encoding of the uri,
and the hash is the hash of the call with the empty uri. -/
theorem mintMsgHash_nul_uri :
    (∀ P : Web3Primitives,
        mintMsgPreimage P (some sampleRecipient) [Char.ofNat 0] sampleNonce (some sampleContract)
            = .ok (addressBytes sampleRecipient ++ utf8Encode sampleNonce
                ++ addressBytes sampleContract)
        ∧ mintMsgHash P (some sampleRecipient) [Char.ofNat 0] sampleNonce (some sampleContract)
            = mintMsgHash P (some sampleRecipient) [] sampleNonce (some sampleContract))
      ∧ addressBytes sampleRecipient ++ utf8Encode sampleNonce ++ addressBytes sampleContract
          ≠ addressBytes sampleRecipient ++ utf8Encode [Char.ofNat 0] ++ utf8Encode sampleNonce
              ++ addressBytes sampleContract := by
  have hr : ∀ P : Web3Primitives, isAddress P sampleRecipient = true :=
    fun P => isAddress_lower P _ (by decide)
  have hc : ∀ P : Web3Primitives, isAddress P sampleContract = true :=
    fun P => isAddress_lower P _ (by decide)
  refine ⟨fun P => ⟨?_, ?_⟩, by decide⟩
  · rw [mintMsgPreimage_eq P _ _ _ _ (hr P) (hc P)]
    have h1 : stripNulPadding (utf8Encode [Char.ofNat 0]) = [] := by decide
    have h2 : stripNulPadding (utf8Encode sampleNonce) = utf8Encode sampleNonce := by decide
    rw [h1, h2]; simp
  · rw [mintMsgHash_eq, mintMsgHash_eq,
      mintMsgPreimage_eq P _ _ _ _ (hr P) (hc P), mintMsgPreimage_eq P _ _ _ _ (hr P) (hc P)]
    have h1 : stripNulPadding (utf8Encode [Char.ofNat 0]) = [] := by decide
    have h3 : stripNulPadding (utf8Encode []) = [] := by decide
    rw [h1, h3]

/-- C2: for every valid recipient address and every uri, with a valid contract address and
a private key of 64 hex digits that the curve library signs with, `Signing` returns the
record whose `uri` is the input, whose `nonce` is the nonce generated in this call, whose
`hash` is what `mintMsgHash` returns for that recipient, uri, nonce and
`config.ContractAddress`, and whose `signature` is the one `signMessage` produces for that
hash and `config.PrivateKey`. -/
theorem Signing_record (P : Web3Primitives) (crypto : Crypto) (config : Config)
    (address uri contract key : Str)
    (haddr : isAddress P address = true)
    (hca : config.ContractAddress = some contract) (hc : isAddress P contract = true)
    (hk : config.PrivateKey = some key) (hlen : jsLength (keyWith0x key) = 66)
    (hsign : ∀ digest, ∃ sig, P.ecdsaSign digest (keyWith0x key) = .ok sig) :
    ∃ hash signner,
      mintMsgHash P (some address) uri (generateNonce crypto) config.ContractAddress = .ok hash
        ∧ signMessage P hash config.PrivateKey = .ok signner
        ∧ Signing P crypto config address uri
            = .ok { uri := uri, nonce := generateNonce crypto, hash := hash,
                    signature := signner.signature } := by
  have hh := mintMsgHash_valid P address uri (generateNonce crypto) contract haddr hc
  rw [← hca] at hh
  generalize hdig : (if "0x".toList ++ bufferToHexString (P.keccak256
      (addressBytes address ++ stripNulPadding (utf8Encode uri)
        ++ stripNulPadding (utf8Encode (generateNonce crypto)) ++ addressBytes contract))
        = SHA3_NULL_S then ([] : Str)
      else "0x".toList ++ bufferToHexString (P.keccak256
        (addressBytes address ++ stripNulPadding (utf8Encode uri)
          ++ stripNulPadding (utf8Encode (generateNonce crypto)) ++ addressBytes contract)))
      = hash at hh
  obtain ⟨sig, hsig⟩ := hsign (P.hashMessage hash)
  have hs : signMessage P hash config.PrivateKey
      = .ok { message := hash, messageHash := P.hashMessage hash, signature := sig } := by
    simp [signMessage, accountsSign, hk, hlen, hsig]
  refine ⟨hash, _, hh, hs, ?_⟩
  simp [Signing, hh, hs]

/-- C2, at the example of the specification. -/
theorem Signing_record_sample :
    isAddress samplePrimitives sampleRecipient = true
      ∧ jsLength (keyWith0x sampleKey) = 66
      ∧ ∃ hash signner,
          mintMsgHash samplePrimitives (some sampleRecipient) sampleUri
              (generateNonce sampleCrypto) sampleConfig.ContractAddress = .ok hash
            ∧ signMessage samplePrimitives hash sampleConfig.PrivateKey = .ok signner
            ∧ Signing samplePrimitives sampleCrypto sampleConfig sampleRecipient sampleUri
                = .ok { uri := sampleUri, nonce := generateNonce sampleCrypto, hash := hash,
                        signature := signner.signature } :=
  ⟨by decide, by decide,
    Signing_record samplePrimitives sampleCrypto sampleConfig sampleRecipient sampleUri
      sampleContract sampleKey (by decide) rfl (by decide) rfl (by decide)
      (fun digest => ⟨digest ++ keyWith0x sampleKey, rfl⟩)⟩

/-- C5: for every recipient that `isAddress` refuses and every uri, `mintMsgHash` throws the
invalid-address exception and `Signing` ends with that exception: it returns no record, and
`signMessage`, which `Signing` calls on the hash only, is not reached. -/
theorem Signing_rejects_malformed (P : Web3Primitives) (crypto : Crypto) (config : Config)
    (address uri : Str) (h : isAddress P address = false) :
    mintMsgHash P (some address) uri (generateNonce crypto) config.ContractAddress
        = .error (.invalidAddress (some address))
      ∧ Signing P crypto config address uri = .error (.invalidAddress (some address)) := by
  have hh := mintMsgHash_invalid_recipient P address uri (generateNonce crypto)
    config.ContractAddress h
  exact ⟨hh, by simp [Signing, hh]⟩

/-- C5, at a recipient of two octets. -/
theorem Signing_rejects_malformed_sample :
    isAddress samplePrimitives "0x1234".toList = false
      ∧ Signing samplePrimitives sampleCrypto sampleConfig "0x1234".toList sampleUri
          = .error (.invalidAddress (some "0x1234".toList)) :=
  ⟨by decide,
    (Signing_rejects_malformed samplePrimitives sampleCrypto sampleConfig "0x1234".toList
      sampleUri (by decide)).2⟩

/-- C6: with `config.PrivateKey` not set, `Signing` ends with an exception for every input
and returns no record (when the hash was computed, the exception is the `TypeError` of
`signMessage`); with `PRIVATE_KEY` not set, loading the Hardhat configuration ends with the
assertion error and exports nothing. -/
theorem missing_key_fails (P : Web3Primitives) (crypto : Crypto) (contract : Option Str)
    (address uri : Str) :
    (∃ e, Signing P crypto { ContractAddress := contract, PrivateKey := none } address uri
        = .error e)
      ∧ (∀ hash, mintMsgHash P (some address) uri (generateNonce crypto) contract = .ok hash →
          signMessage P hash none = .error .typeError
            ∧ Signing P crypto { ContractAddress := contract, PrivateKey := none } address uri
                = .error .typeError)
      ∧ hardhatConfig none = .error (.assertion privateKeyMessage) := by
  refine ⟨?_, ?_, rfl⟩
  · cases hh : mintMsgHash P (some address) uri (generateNonce crypto) contract with
    | error e => exact ⟨e, by simp [Signing, hh]⟩
    | ok hash => exact ⟨.typeError, by simp [Signing, hh, signMessage, accountsSign]⟩
  · intro hash hh
    exact ⟨rfl, by simp [Signing, hh, signMessage, accountsSign]⟩

/-- C8: in every run of `main` that resolves, the fee parses to a number, the events are
exactly: AuctionHouse deployed with that number, RMDSNFT deployed with the address of that
AuctionHouse, the line with the RMDSNFT address, the line with the AuctionHouse address; and
in every run, RMDSNFT is deployed only after the AuctionHouse deployment succeeded (`deploy`
and `deployed` both returned), with its address as argument. -/
theorem deploy_order (fee : Option Str) (E : Ethers) :
    (∀ events, main fee E = (events, .ok ()) →
        ∃ n marketPlaceAddress nftTokenAddress,
          parseInt fee = some n
            ∧ E.deploy [] auctionHouse (.number (some n)) = .ok marketPlaceAddress
            ∧ E.deploy [Event.deploy auctionHouse (.number (some n))] rmdsNft
                (.address marketPlaceAddress) = .ok nftTokenAddress
            ∧ events =
                [Event.deploy auctionHouse (.number (some n)),
                 Event.deploy rmdsNft (.address marketPlaceAddress),
                 Event.log (nftLine ++ nftTokenAddress),
                 Event.log (auctionHouseLine ++ marketPlaceAddress)])
      ∧ (∀ arg, Event.deploy rmdsNft arg ∈ (main fee E).1 →
          ∃ n marketPlaceAddress,
            parseInt fee = some n
              ∧ E.deploy [] auctionHouse (.number (some n)) = .ok marketPlaceAddress
              ∧ E.deployed [Event.deploy auctionHouse (.number (some n))] marketPlaceAddress
                  = .ok ()
              ∧ arg = .address marketPlaceAddress) := by
  cases hf : E.getContractFactory [] auctionHouse with
  | error m =>
    rw [main_factory_fails fee E m hf]
    exact ⟨fun events h => by simp at h, fun arg h => by simp at h⟩
  | ok u =>
    cases hp : truthyNumber (parseInt fee) with
    | false =>
      rw [main_guard_fails fee E hf hp]
      exact ⟨fun events h => by simp at h, fun arg h => by simp at h⟩
    | true =>
      obtain ⟨n, hn, hn0⟩ := (truthyNumber_iff _).mp hp
      have hne : rmdsNft ≠ auctionHouse := by decide
      have hsecond : ∀ (a : Str) (arg : DeployArg), Event.deploy rmdsNft arg
          ∈ [Event.deploy auctionHouse (.number (some n))] ++ [Event.deploy rmdsNft (.address a)] →
          arg = .address a := by
        intro a arg h
        simpa [hne] using h
      have hfirst : ∀ arg, Event.deploy rmdsNft arg ∉ [Event.deploy auctionHouse (.number (some n))] := by
        intro arg h
        simp [hne] at h
      rw [main_guard_passes fee E n hf hn hn0]
      simp only
      cases h1 : E.deploy [] auctionHouse (.number (some n)) with
      | error m =>
        simp only
        exact ⟨fun events h => by simp at h, fun arg h => absurd h (hfirst arg)⟩
      | ok a1 =>
        simp only
        cases h2 : E.deployed [Event.deploy auctionHouse (.number (some n))] a1 with
        | error m =>
          simp only
          exact ⟨fun events h => by simp at h, fun arg h => absurd h (hfirst arg)⟩
        | ok u2 =>
          simp only
          cases h3 : E.getContractFactory [Event.deploy auctionHouse (.number (some n))] rmdsNft with
          | error m =>
            simp only
            exact ⟨fun events h => by simp at h, fun arg h => absurd h (hfirst arg)⟩
          | ok u3 =>
            simp only
            cases h4 : E.deploy [Event.deploy auctionHouse (.number (some n))] rmdsNft
                (.address a1) with
            | error m =>
              simp only
              exact ⟨fun events h => by simp at h,
                fun arg h => ⟨n, a1, hn, h1, h2, hsecond a1 arg h⟩⟩
            | ok a2 =>
              simp only
              cases h5 : E.deployed ([Event.deploy auctionHouse (.number (some n))]
                  ++ [Event.deploy rmdsNft (.address a1)]) a2 with
              | error m =>
                simp only
                exact ⟨fun events h => by simp at h,
                  fun arg h => ⟨n, a1, hn, h1, h2, hsecond a1 arg h⟩⟩
              | ok u5 =>
                simp only
                refine ⟨fun events h => ⟨n, a1, a2, hn, h1, h4, ?_⟩,
                  fun arg h => ⟨n, a1, hn, h1, h2, ?_⟩⟩
                · simp only [Prod.mk.injEq, and_true] at h
                  rw [← h]; rfl
                · simp only [List.mem_append, List.mem_cons, List.mem_singleton, Event.deploy.injEq,
                    hne, false_and, true_and, false_or, or_false, List.not_mem_nil,
                    reduceCtorEq] at h
                  exact h

/-- C8, at a run in which every ethers call succeeds and the fee is `"5"`. -/
theorem deploy_order_sample :
    main (some "5".toList) sampleEthers =
        ([Event.deploy auctionHouse (.number (some 5)),
          Event.deploy rmdsNft (.address auctionHouse),
          Event.log (nftLine ++ rmdsNft),
          Event.log (auctionHouseLine ++ auctionHouse)], .ok ())
      ∧ ∃ n marketPlaceAddress nftTokenAddress,
          parseInt (some "5".toList) = some n
            ∧ sampleEthers.deploy [] auctionHouse (.number (some n)) = .ok marketPlaceAddress
            ∧ sampleEthers.deploy [Event.deploy auctionHouse (.number (some n))]
                rmdsNft (.address marketPlaceAddress) = .ok nftTokenAddress
            ∧ [Event.deploy auctionHouse (.number (some 5)),
               Event.deploy rmdsNft (.address auctionHouse),
               Event.log (nftLine ++ rmdsNft),
               Event.log (auctionHouseLine ++ auctionHouse)] =
                [Event.deploy auctionHouse (.number (some n)),
                 Event.deploy rmdsNft (.address marketPlaceAddress),
                 Event.log (nftLine ++ nftTokenAddress),
                 Event.log (auctionHouseLine ++ marketPlaceAddress)] :=
  ⟨rfl, (deploy_order (some "5".toList) sampleEthers).1 _ rfl⟩

/-- C10: when the AuctionHouse factory was obtained, `main` reaches the AuctionHouse
deployment exactly when `parseInt(FEE_PERCENT)` is a non-zero number, and ends with the
"is required" assertion error, nothing deployed, exactly when it is `NaN` or zero; the
argument of the deployment is the parsed number. An absent variable parses to `NaN`, `"0"`
to zero and `"5abc"` to 5. -/
theorem fee_guard (fee : Option Str) (E : Ethers)
    (hf : E.getContractFactory [] auctionHouse = .ok ()) :
    ((∃ arg, Event.deploy auctionHouse arg ∈ (main fee E).1)
        ↔ ∃ n, parseInt fee = some n ∧ n ≠ 0)
      ∧ (main fee E = ([], .error (.assertion feePercentMessage))
        ↔ parseInt fee = none ∨ parseInt fee = some 0)
      ∧ (∀ n, parseInt fee = some n → n ≠ 0 →
          (main fee E).1.head? = some (Event.deploy auctionHouse (.number (some n))))
      ∧ parseInt none = none
      ∧ parseInt (some "0".toList) = some 0
      ∧ parseInt (some "5abc".toList) = some 5 := by
  have hpass : ∀ n, parseInt fee = some n → n ≠ 0 →
      (main fee E).1.head? = some (Event.deploy auctionHouse (.number (some n)))
        ∧ (main fee E).2 ≠ .error (.assertion feePercentMessage) := by
    intro n hn hn0
    rw [main_guard_passes fee E n hf hn hn0]
    simp only
    cases E.deploy [] auctionHouse (.number (some n)) with
    | error m => simp
    | ok a1 =>
      simp only
      cases E.deployed [Event.deploy auctionHouse (.number (some n))] a1 with
      | error m => simp
      | ok u2 =>
        simp only
        cases E.getContractFactory [Event.deploy auctionHouse (.number (some n))] rmdsNft with
        | error m => simp
        | ok u3 =>
          simp only
          cases E.deploy [Event.deploy auctionHouse (.number (some n))] rmdsNft (.address a1) with
          | error m => simp
          | ok a2 =>
            simp only
            cases E.deployed ([Event.deploy auctionHouse (.number (some n))]
                ++ [Event.deploy rmdsNft (.address a1)]) a2 with
            | error m => simp
            | ok u5 => simp
  have hfalse : truthyNumber (parseInt fee) = false
      ↔ parseInt fee = none ∨ parseInt fee = some 0 := by
    cases parseInt fee with
    | none => simp [truthyNumber]
    | some n => simp [truthyNumber]
  refine ⟨?_, ?_, fun n hn hn0 => (hpass n hn hn0).1, by decide, by decide, by decide⟩
  · constructor
    · rintro ⟨arg, harg⟩
      cases hp : truthyNumber (parseInt fee) with
      | false =>
        rw [main_guard_fails fee E hf hp] at harg
        simp at harg
      | true => exact (truthyNumber_iff _).mp hp
    · rintro ⟨n, hn, hn0⟩
      refine ⟨.number (some n), ?_⟩
      have := (hpass n hn hn0).1
      exact List.mem_of_mem_head? this
  · constructor
    · intro h
      cases hp : truthyNumber (parseInt fee) with
      | false => exact hfalse.mp hp
      | true =>
        obtain ⟨n, hn, hn0⟩ := (truthyNumber_iff _).mp hp
        have := (hpass n hn hn0).2
        rw [h] at this
        exact absurd rfl this
    · intro h
      exact main_guard_fails fee E hf (hfalse.mpr h)

/-- C10, at the values `"0"` (refused) and `"5abc"` (deployed with 5). -/
theorem fee_guard_sample :
    sampleEthers.getContractFactory [] auctionHouse = .ok ()
      ∧ main (some "0".toList) sampleEthers = ([], .error (.assertion feePercentMessage))
      ∧ (main (some "5abc".toList) sampleEthers).1.head?
          = some (Event.deploy auctionHouse (.number (some 5))) :=
  ⟨rfl,
    (fee_guard (some "0".toList) sampleEthers rfl).2.1.mpr (Or.inr (by decide)),
    (fee_guard (some "5abc".toList) sampleEthers rfl).2.2.1 5 (by decide) (by decide)⟩

/-- C9 (amended): for valid recipient and contract addresses, uris and nonces that neither
start nor end with U+0000, and nonces of length 32, the octets `mintMsgHash` hashes
determine the 20 octets of the recipient, the uri, the nonce and the 20 octets of the
contract. -/
theorem mintMsgPreimage_injective (P : Web3Primitives) (r1 r2 c1 c2 u1 u2 n1 n2 : Str)
    (hr1 : isAddress P r1 = true) (hr2 : isAddress P r2 = true)
    (hc1 : isAddress P c1 = true) (hc2 : isAddress P c2 = true)
    (hu1 : nulPadded u1 = false) (hu2 : nulPadded u2 = false)
    (hn1 : nulPadded n1 = false) (hn2 : nulPadded n2 = false)
    (hl1 : jsLength n1 = 32) (hl2 : jsLength n2 = 32)
    (h : mintMsgPreimage P (some r1) u1 n1 (some c1)
      = mintMsgPreimage P (some r2) u2 n2 (some c2)) :
    addressBytes r1 = addressBytes r2 ∧ u1 = u2 ∧ n1 = n2
      ∧ addressBytes c1 = addressBytes c2 := by
  rw [mintMsgPreimage_eq P _ _ _ _ hr1 hc1, mintMsgPreimage_eq P _ _ _ _ hr2 hc2,
    stripNulPadding_utf8Encode u1 hu1, stripNulPadding_utf8Encode u2 hu2,
    stripNulPadding_utf8Encode n1 hn1, stripNulPadding_utf8Encode n2 hn2] at h
  simp only [Except.ok.injEq] at h
  have e1 := addressBytes_length P r1 hr1
  have e2 := addressBytes_length P r2 hr2
  have e3 := addressBytes_length P c1 hc1
  have e4 := addressBytes_length P c2 hc2
  obtain ⟨hmid, hc⟩ := List.append_inj' h (by omega)
  simp only [List.append_assoc] at hmid
  obtain ⟨hr, hun⟩ := List.append_inj hmid (by omega)
  rw [← utf8Encode_append, ← utf8Encode_append] at hun
  have hs := utf8Encode_injective _ _ hun
  obtain ⟨hu, hn⟩ := append_split_of_jsLength u1 n1 u2 n2 hs (by omega)
  exact ⟨hr, hu, hn, hc⟩

/-- C9, at the example of the specification with the recipient written in two ways. -/
theorem mintMsgPreimage_injective_sample :
    nulPadded sampleUri = false ∧ nulPadded sampleNonce = false ∧ jsLength sampleNonce = 32
      ∧ (mintMsgPreimage samplePrimitives (some sampleRecipient) sampleUri sampleNonce
            (some sampleContract)
          = mintMsgPreimage samplePrimitives (some sampleRecipientUpper) sampleUri sampleNonce
            (some sampleContract))
      ∧ addressBytes sampleRecipient = addressBytes sampleRecipientUpper :=
  ⟨by decide, by decide, by decide, rfl,
    (mintMsgPreimage_injective samplePrimitives sampleRecipient sampleRecipientUpper
      sampleContract sampleContract sampleUri sampleUri sampleNonce sampleNonce (by decide)
      (by decide) (by decide) (by decide) (by decide) (by decide) (by decide) (by decide)
      (by decide) (by decide) rfl).1⟩

/-- C9 as stated fails: the uri of the example and the same uri followed by U+0000 are
different strings, and with the same recipient, 32-character nonce and contract the octets
hashed are the same. -/
theorem mintMsgPreimage_nul_collision :
    (∀ P : Web3Primitives,
        mintMsgPreimage P (some sampleRecipient) (sampleUri ++ [Char.ofNat 0]) sampleNonce
            (some sampleContract)
          = mintMsgPreimage P (some sampleRecipient) sampleUri sampleNonce (some sampleContract))
      ∧ sampleUri ++ [Char.ofNat 0] ≠ sampleUri
      ∧ jsLength sampleNonce = 32
      ∧ (addressBytes sampleRecipient).length = 20
      ∧ (addressBytes sampleContract).length = 20 := by
  refine ⟨fun P => ?_, by decide, by decide, by decide, by decide⟩
  rw [mintMsgPreimage_eq P _ _ _ _ (isAddress_lower P _ (by decide))
      (isAddress_lower P _ (by decide)),
    mintMsgPreimage_eq P _ _ _ _ (isAddress_lower P _ (by decide))
      (isAddress_lower P _ (by decide))]
  have h1 : stripNulPadding (utf8Encode (sampleUri ++ [Char.ofNat 0]))
      = stripNulPadding (utf8Encode sampleUri) := by decide
  rw [h1]

end RMDS
